import Mathlib

/-!
Verification development for the flingo application module
(src/src/flingo/main module).  The Python source is shallowly embedded:
ground symbols become an inductive type, the model callback and the
option parser become pure functions, and the builder interaction in
the main entry point becomes a trace of builder entries.
-/

namespace Flingo

/-- Reserved predicate name of constraint valuation theory atoms
(constant CSP in the source). -/
def CSP : String := "__csp"

/-- Default name of the defined predicate (constant DEF in the source). -/
def DEF : String := "__def"

/-- Default upper bound of the integer domain (constant MAX_INT). -/
def MAX_INT : Int := 1073741823

/-- Default lower bound of the integer domain (constant MIN_INT). -/
def MIN_INT : Int := -1073741823

/-- Modelled from the spec: AUX is imported from flingo.translator, which is
not under src.  The spec calls it the reserved auxiliary functor and the
claims spell it with two leading underscores. -/
def AUX : String := "__aux"

/-- A ground clingo symbol: a function term with a name and arguments, or a
number.  Accessing the name of a number raises in the clingo API; the
embedding exposes the name as an optional value so that a name comparison
on a number is simply false. -/
inductive Sym where
  | func (name : String) (args : List Sym)
  | num (n : Int)

mutual

/-- Decidable equality of symbols, by hand because the nested occurrence of
List defeats the deriving handler. -/
def Sym.decEq : (a b : Sym) → Decidable (a = b)
  | .num a, .num b =>
      if h : a = b then .isTrue (congrArg Sym.num h)
      else .isFalse (fun hh => h (Sym.num.inj hh))
  | .num _, .func _ _ => .isFalse (fun hh => Sym.noConfusion hh)
  | .func _ _, .num _ => .isFalse (fun hh => Sym.noConfusion hh)
  | .func c as, .func d bs =>
      if h : c = d then
        match Sym.decEqList as bs with
        | .isTrue h2 => .isTrue (by rw [h, h2])
        | .isFalse h2 => .isFalse (fun hh => h2 (Sym.func.inj hh).2)
      else .isFalse (fun hh => h (Sym.func.inj hh).1)

/-- Decidable equality of symbol lists. -/
def Sym.decEqList : (a b : List Sym) → Decidable (a = b)
  | [], [] => .isTrue rfl
  | [], _ :: _ => .isFalse (fun hh => List.noConfusion hh)
  | _ :: _, [] => .isFalse (fun hh => List.noConfusion hh)
  | a :: as, b :: bs =>
      match Sym.decEq a b, Sym.decEqList as bs with
      | .isTrue h1, .isTrue h2 => .isTrue (by rw [h1, h2])
      | .isFalse h1, _ => .isFalse (fun hh => h1 (List.cons.inj hh).1)
      | _, .isFalse h2 => .isFalse (fun hh => h2 (List.cons.inj hh).2)

end

instance : DecidableEq Sym := Sym.decEq

/-- The name of a symbol, defined only on function terms. -/
def Sym.nameOf : Sym → Option String
  | .func c _ => some c
  | .num _ => none

mutual

/-- String rendering of a symbol, mirroring str(symbol) in clingo. -/
def Sym.str : Sym → String
  | .num n => toString n
  | .func c [] => c
  | .func c (a :: as) => c ++ "(" ++ Sym.str a ++ strArgs as ++ ")"

/-- Rendering of the remaining arguments of a function term. -/
def strArgs : List Sym → String
  | [] => ""
  | a :: as => "," ++ Sym.str a ++ strArgs as

end

/-- A ground atom: the symbols returned by model.symbols are always
function symbols, with a name and an argument list. -/
structure GAtom where
  name : String
  args : List Sym
deriving DecidableEq

/-- String rendering of a ground atom. -/
def GAtom.str (a : GAtom) : String := Sym.str (.func a.name a.args)

/-- Application configuration (class AppConfig in the source). -/
structure AppConfig where
  print_aux : Bool
  print_trans : Bool
  min_int : Int
  max_int : Int
  defined : String
deriving DecidableEq

/-- The configuration built in the FlingoApp constructor:
AppConfig(MIN_INT, MAX_INT, Flag(False), Flag(False), DEF). -/
def defaultAppConfig : AppConfig :=
  ⟨false, false, MIN_INT, MAX_INT, DEF⟩

/-- A solver model as seen through the clingo API in print_model:
the shown atoms, the theory valuation atoms, and the set of true atoms
queried through model.contains. -/
structure Model where
  shown : List GAtom
  theory : List GAtom
  trueAtoms : List GAtom
deriving DecidableEq

/-- model.contains for a ground atom. -/
def Model.containsB (m : Model) (a : GAtom) : Bool :=
  m.trueAtoms.contains a

/-- Filter used twice in print_model: an atom is a DefinedMarker atom when
its name equals the configured defined predicate and it has exactly one
argument. -/
def isDefinedMarker (cfg : AppConfig) (a : GAtom) : Bool :=
  a.name == cfg.defined && a.args.length == 1

/-- Condition of the primary valuation comprehension in print_model: the
assignment is named CSP, has exactly two arguments, the model contains the
defined atom for its first argument, and the first argument is not tagged
with the auxiliary functor. -/
def isPrimaryVal (cfg : AppConfig) (m : Model) (a : GAtom) : Bool :=
  match a.args with
  | [v, _] =>
      a.name == CSP && m.containsB ⟨cfg.defined, [v]⟩ && !(Sym.nameOf v == some AUX)
  | _ => false

/-- Condition of the auxiliary valuation comprehension in print_model: the
assignment is named CSP, has exactly two arguments, and its first argument
is tagged with the auxiliary functor.  Definedness is not consulted here. -/
def isAuxVal (a : GAtom) : Bool :=
  match a.args with
  | [v, _] =>
      a.name == CSP && Sym.nameOf v == some AUX
  | _ => false

/-- Rendering of one valuation entry, val(variable,value). -/
def valStr (a : GAtom) : String :=
  match a.args with
  | [v, w] => "val(" ++ Sym.str v ++ "," ++ Sym.str w ++ ")"
  | _ => ""

/-- The shown part of the primary line: every shown atom that is not a
DefinedMarker atom, rendered as a string. -/
def shownStrs (cfg : AppConfig) (m : Model) : List String :=
  (m.shown.filter (fun a => !(isDefinedMarker cfg a))).map GAtom.str

/-- The valuation part of the primary line. -/
def primaryVals (cfg : AppConfig) (m : Model) : List String :=
  (m.theory.filter (isPrimaryVal cfg m)).map valStr

/-- The DefinedMarker part of the auxiliary line. -/
def defsStrs (cfg : AppConfig) (m : Model) : List String :=
  (m.shown.filter (isDefinedMarker cfg)).map GAtom.str

/-- The valuation part of the auxiliary line. -/
def auxVals (m : Model) : List String :=
  (m.theory.filter isAuxVal).map valStr

/-- All entries of the primary output line, in print order. -/
def primaryEntries (cfg : AppConfig) (m : Model) : List String :=
  shownStrs cfg m ++ primaryVals cfg m

/-- All entries of the auxiliary output line, in print order. -/
def auxEntries (cfg : AppConfig) (m : Model) : List String :=
  defsStrs cfg m ++ auxVals m

/-- The two output lines produced by one print_model call: the primary
line is always printed, the auxiliary line only under the print_aux flag. -/
structure Output where
  primary : String
  auxLine : Option String
deriving DecidableEq

/-- FlingoApp.print_model: join the shown strings and the primary
valuations with single spaces, then, when the flag is set, join the
DefinedMarker atoms and the auxiliary valuations on a second line. -/
def print_model (cfg : AppConfig) (m : Model) : Output :=
  ⟨String.intercalate " " (primaryEntries cfg m),
   if cfg.print_aux then some (String.intercalate " " (auxEntries cfg m)) else none⟩

/-- Result of calling a Python function, including the exceptions the call
can raise. -/
inductive PyResult (α : Type) where
  | ok (a : α)
  | attributeError
  | indexError
deriving DecidableEq

/-- FlingoApp parse of the defined-predicate option: the source reads
name[0].islower() and then name.contains("[a-zA-Z0-9]+").  Indexing an
empty string raises IndexError; the str type has no method called
contains, so the second conjunct raises AttributeError whenever it is
reached; otherwise the function returns False. -/
def parse_defined_predicate (name : String) : PyResult Bool :=
  match name.data with
  | [] => .indexError
  | c :: _ => if c.isLower then .attributeError else .ok false

/-- A source position, Position(filename, line, column). -/
structure Pos where
  filename : String
  line : Nat
  column : Nat
deriving DecidableEq

/-- A source location made of a start and an end position. -/
structure Loc where
  start : Pos
  stop : Pos
deriving DecidableEq

/-- The synthetic position used when materializing queued rules in main:
Position("<string>", 1, 1). -/
def synthPos : Pos := ⟨"<string>", 1, 1⟩

/-- The synthetic location Location(pos, pos) used in main. -/
def synthLoc : Loc := ⟨synthPos, synthPos⟩

/-- One entry added to the ProgramBuilder in main: either a rewritten
statement or a materialized pending rule with its location. -/
inductive BldEntry (S H B : Type) where
  | stmt (s : S)
  | rule (loc : Loc) (head : H) (body : B)
deriving DecidableEq

/-- Modelled from the spec: one visit of HeadBodyTransformer, whose module
flingo.parsing is not under src.  visit takes one statement and the current
queue of pending rules and returns the rewritten statement together with
the pending rules synthesized while visiting it; the rewritten statement is
emitted in place and the new rules are appended to the queue, preserving
the order of synthesis. -/
def visitStep {S H B : Type} (visit : S → List (H × B) → S × List (H × B))
    (acc : List S × List (H × B)) (s : S) : List S × List (H × B) :=
  (acc.1 ++ [(visit s acc.2).1], acc.2 ++ (visit s acc.2).2)

/-- Modelled from the spec: the whole visiting pass over the primary
statement stream, threading the queue of pending rules. -/
def rewriteRun {S H B : Type} (visit : S → List (H × B) → S × List (H × B))
    (stmts : List S) : List S × List (H × B) :=
  stmts.foldl (visitStep visit) ([], [])

/-- The ProgramBuilder contents produced by FlingoApp.main: parse_files
adds the rewritten statements one by one in parse order, then the loop over
rules_to_add adds Rule(loc, head, body) for every queued pending rule. -/
def mainBuild {S H B : Type} (visit : S → List (H × B) → S × List (H × B))
    (stmts : List S) : List (BldEntry S H B) :=
  (rewriteRun visit stmts).1.map .stmt
    ++ (rewriteRun visit stmts).2.map (fun r => .rule synthLoc r.1 r.2)

/-- Translation statistics (class Statistic in the source).  The two time
fields hold durations; since no claim computes with them they are carried
as integers, only their placement in the report matters. -/
structure Statistic where
  rewrite_ast : Int
  translate_program : Int
  atoms_added : Int
  rules_added : Int
  variables_added : Int
deriving DecidableEq

/-- A clingo statistics value: a number or a nested map of named entries. -/
inductive StatsVal where
  | num (v : Int)
  | map (entries : List (String × StatsVal))

/-- Assignment akku[k] = v on a statistics map: replace the entries under
an existing key, or append a new entry. -/
def setKey (m : List (String × StatsVal)) (k : String) (v : StatsVal) :
    List (String × StatsVal) :=
  if m.any (fun e => e.1 == k) then
    m.map (fun e => if e.1 == k then (k, v) else e)
  else
    m ++ [(k, v)]

/-- Lookup of a key on a statistics map. -/
def lookupKey (m : List (String × StatsVal)) (k : String) : Option StatsVal :=
  (m.find? (fun e => e.1 == k)).map (fun e => e.2)

/-- The nested section written under akku["flingo"] by _on_statistics. -/
def flingoSection (s : Statistic) : StatsVal :=
  .map
    [("Translation time in seconds",
        .map [("AST rewriting", .num s.rewrite_ast),
              ("Translation", .num s.translate_program)]),
     ("Number of variables added", .num s.variables_added),
     ("Number of atoms added", .num s.atoms_added),
     ("Number of rules added", .num s.rules_added)]

/-- FlingoApp._on_statistics after the theory has merged its own section:
set the flingo section on the accumulator and return True. -/
def on_statistics (akku : List (String × StatsVal)) (s : Statistic) :
    List (String × StatsVal) × Bool :=
  (setKey akku "flingo" (flingoSection s), true)

/-- One engine-facing action of FlingoApp.main, in the order main performs
them. -/
inductive Action where
  | register
  | configure (key : String) (val : String)
  | buildProgram
  | addBase
  | ground
  | translate
  | prepare
  | solve
deriving DecidableEq

/-- The ordered action trace of FlingoApp.main: register the theory,
configure max-int and min-int from the configuration, build the rewritten
program, add the theory definition, ground, translate, prepare and solve. -/
def mainActions (cfg : AppConfig) : List Action :=
  [.register,
   .configure "max-int" (toString cfg.max_int),
   .configure "min-int" (toString cfg.min_int),
   .buildProgram, .addBase, .ground, .translate, .prepare, .solve]

/-- The file list main actually parses: an empty list is replaced by the
single stdin marker. -/
def effectiveFiles (files : List String) : List String :=
  if files.isEmpty then ["-"] else files

/-- Where FlingoApp._read reads from for a given path. -/
inductive Source where
  | stdin
  | file (path : String)
deriving DecidableEq

/-- FlingoApp._read: the marker "-" selects standard input, any other path
is opened as a file. -/
def readSource (path : String) : Source :=
  if path = "-" then .stdin else .file path

/-- Refinement target, following the words of the spec (section 4.4): a
valuation is visible when the atom bears the reserved binary predicate
name, has exactly two arguments, its variable argument has a true defined
atom in the model, and the variable is not tagged auxiliary. -/
def specVisibleVal (cfg : AppConfig) (m : Model) (a : GAtom) : Bool :=
  a.name == CSP && a.args.length == 2 &&
    (match a.args.head? with
     | some v => m.containsB ⟨cfg.defined, [v]⟩ && !(Sym.nameOf v == some AUX)
     | none => false)

/-- Refinement target, following the words of the spec (section 4.4): the
primary line is every true shown atom except the DefinedMarker atoms,
joined with val entries for every visible valuation, separated by single
spaces. -/
def specPrimaryLine (cfg : AppConfig) (m : Model) : String :=
  String.intercalate " "
    ((m.shown.filter
        (fun a => !(a.name == cfg.defined && a.args.length == 1))).map GAtom.str
      ++ (m.theory.filter (specVisibleVal cfg m)).map valStr)

/-- Example auxiliary-tagged constraint variable. -/
def auxVar : Sym := .func AUX [.num 1]

/-- Example user constraint variable. -/
def userVar : Sym := .func "x" []

/-- Example valuation atom assigning 5 to the auxiliary variable. -/
def cspAux5 : GAtom := ⟨CSP, [auxVar, .num 5]⟩

/-- Example valuation atom assigning 7 to the user variable. -/
def cspX7 : GAtom := ⟨CSP, [userVar, .num 7]⟩

/-- Example defined atom for the auxiliary variable. -/
def defAux : GAtom := ⟨DEF, [auxVar]⟩

/-- The default configuration with the auxiliary printing flag enabled. -/
def cfgAuxOn : AppConfig := ⟨true, false, MIN_INT, MAX_INT, DEF⟩

/-- Example model with one undefined auxiliary valuation: no defined atom
is true. -/
def mUndefAux : Model := ⟨[], [cspAux5], []⟩

/-- Example model with one defined auxiliary valuation. -/
def mDefAux : Model := ⟨[], [cspAux5], [defAux]⟩

/-- Example malformed valuation atom of arity one. -/
def cspArity1 : GAtom := ⟨CSP, [.num 1]⟩

/-- Example model holding one shown atom and one malformed valuation. -/
def mMalformed : Model := ⟨[⟨"p", []⟩], [cspArity1], []⟩

/-- Example shown atom bearing the defined-predicate name at arity two. -/
def defArity2 : GAtom := ⟨DEF, [.num 1, .num 2]⟩

/-- Example model whose only shown atom is the arity-two defined atom. -/
def mDefArity2 : Model := ⟨[defArity2], [], []⟩

/-- Concrete visiting function used to instantiate the order theorem: the
rewritten statement is the successor, and one pending rule recording the
statement and the queue length is synthesized per visit. -/
def exVisit : Nat → List (Nat × Nat) → Nat × List (Nat × Nat) :=
  fun s q => (s + 1, [(s, q.length)])

/-- C2: the claim says the defined-predicate parser accepts "ok_name" and
"a1" and rejects "Bad", "" and "1x" with a configuration error and no
other exception.  Evaluating the embedded source shows the code instead
raises AttributeError on every lowercase-initial name, because the str
type has no contains method, and raises IndexError on the empty name; only
"Bad" and "1x" are rejected cleanly. -/
theorem c2_defined_predicate_eval :
    parse_defined_predicate "ok_name" = .attributeError ∧
    parse_defined_predicate "a1" = .attributeError ∧
    parse_defined_predicate "" = .indexError ∧
    parse_defined_predicate "Bad" = .ok false ∧
    parse_defined_predicate "1x" = .ok false :=
  ⟨rfl, rfl, rfl, rfl, rfl⟩

/-- C8: by default main configures the theory with max-int 1073741823 and
min-int -1073741823, and both configure actions happen before grounding. -/
theorem c8_default_bounds :
    MAX_INT = 1073741823 ∧ MIN_INT = -1073741823 ∧
    (mainActions defaultAppConfig).take 3 =
      [Action.register,
       Action.configure "max-int" "1073741823",
       Action.configure "min-int" "-1073741823"] ∧
    Action.ground ∈ (mainActions defaultAppConfig).drop 3 := by
  refine ⟨rfl, rfl, rfl, ?_⟩
  simp [mainActions]

/-- C9: an empty file list is replaced by the single stdin marker "-", so
main never proceeds with zero input sources, and _read resolves the marker
to standard input. -/
theorem c9_empty_files :
    effectiveFiles [] = ["-"] ∧ readSource "-" = Source.stdin ∧
    ∀ fs : List String, (effectiveFiles fs).isEmpty = false := by
  refine ⟨rfl, rfl, fun fs => ?_⟩
  cases fs with
  | nil => rfl
  | cons a l => rfl

/-- Setting a key on a statistics map makes it look up to the new value,
whether the key was already present or not. -/
theorem lookupKey_setKey (m : List (String × StatsVal)) (k : String) (v : StatsVal) :
    lookupKey (setKey m k v) k = some v := by
  unfold setKey
  by_cases h : m.any (fun e => e.1 == k) = true
  · rw [if_pos h]
    induction m with
    | nil => simp at h
    | cons e t ih =>
      by_cases he : e.1 == k
      · simp [lookupKey, List.find?, he]
      · have ht : t.any (fun e => e.1 == k) = true := by
          simpa [List.any_cons, he] using h
        simpa [lookupKey, List.find?, he] using ih ht
  · rw [if_neg h]
    induction m with
    | nil => simp [lookupKey, List.find?]
    | cons e t ih =>
      have he : (e.1 == k) = false := by
        by_contra hc
        exact h (by simp [List.any_cons, Bool.of_not_eq_false hc])
      have ht : ¬t.any (fun e => e.1 == k) = true := by
        intro hc
        exact h (by simp [List.any_cons, hc])
      simpa [lookupKey, List.find?, he] using ih ht

/-- C7: the statistics callback stores under the key flingo a section with
a sub-section "Translation time in seconds" holding the AST rewriting and
Translation durations, plus the three added counters under their labels,
and returns true. -/
theorem c7_on_statistics (akku : List (String × StatsVal)) (s : Statistic) :
    (on_statistics akku s).2 = true ∧
    lookupKey (on_statistics akku s).1 "flingo" =
      some (.map
        [("Translation time in seconds",
            .map [("AST rewriting", .num s.rewrite_ast),
                  ("Translation", .num s.translate_program)]),
         ("Number of variables added", .num s.variables_added),
         ("Number of atoms added", .num s.atoms_added),
         ("Number of rules added", .num s.rules_added)]) := by
  refine ⟨rfl, ?_⟩
  exact lookupKey_setKey akku "flingo" (flingoSection s)

/-- A valuation atom whose arity is not two never passes the primary
valuation filter. -/
theorem isPrimaryVal_arity (cfg : AppConfig) (m : Model) :
    ∀ (a : GAtom), a.args.length ≠ 2 → isPrimaryVal cfg m a = false
  | ⟨_, []⟩, _ => rfl
  | ⟨_, [_]⟩, _ => rfl
  | ⟨_, [_, _]⟩, h => absurd rfl h
  | ⟨_, _ :: _ :: _ :: _⟩, _ => rfl

/-- A valuation atom whose arity is not two never passes the auxiliary
valuation filter. -/
theorem isAuxVal_arity :
    ∀ (a : GAtom), a.args.length ≠ 2 → isAuxVal a = false
  | ⟨_, []⟩, _ => rfl
  | ⟨_, [_]⟩, _ => rfl
  | ⟨_, [_, _]⟩, h => absurd rfl h
  | ⟨_, _ :: _ :: _ :: _⟩, _ => rfl

/-- The filter written from the words of the spec agrees with the filter
written from the source on every atom. -/
theorem specVisibleVal_eq (cfg : AppConfig) (m : Model) :
    ∀ (a : GAtom), specVisibleVal cfg m a = isPrimaryVal cfg m a
  | ⟨n, []⟩ => by simp [specVisibleVal, isPrimaryVal]
  | ⟨n, [v]⟩ => by simp [specVisibleVal, isPrimaryVal]
  | ⟨n, [v, w]⟩ => by simp [specVisibleVal, isPrimaryVal, Bool.and_assoc]
  | ⟨n, v :: w :: r :: t⟩ => by simp [specVisibleVal, isPrimaryVal]

/-- The primary valuation filter only reads the shown-independent parts of
the model, so replacing the theory list leaves it unchanged. -/
theorem isPrimaryVal_theory_inv (cfg : AppConfig) (m : Model) (t : List GAtom) :
    isPrimaryVal cfg ⟨m.shown, t, m.trueAtoms⟩ = isPrimaryVal cfg m := rfl

/-- C4: the primary output line of print_model is exactly the line the
spec describes: all true shown atoms except the DefinedMarker atoms,
followed by one val entry per visible valuation, joined by single
spaces. -/
theorem c4_primary_line (cfg : AppConfig) (m : Model) :
    (print_model cfg m).primary = specPrimaryLine cfg m := by
  have hf : m.theory.filter (specVisibleVal cfg m)
      = m.theory.filter (isPrimaryVal cfg m) :=
    List.filter_congr (fun a _ => specVisibleVal_eq cfg m a)
  show String.intercalate " " (primaryEntries cfg m) = _
  rw [specPrimaryLine, hf]
  rfl

/-- C5: a theory atom named with the reserved predicate but of arity other
than two passes neither valuation filter, and removing it from the theory
atoms leaves the printed output unchanged, so the rest of the model is
still formatted and printed. -/
theorem c5_arity_rejection (cfg : AppConfig) (m : Model) (a : GAtom)
    (l₁ l₂ : List GAtom) (hname : a.name = CSP) (harity : a.args.length ≠ 2)
    (hsplit : m.theory = l₁ ++ a :: l₂) :
    isPrimaryVal cfg m a = false ∧ isAuxVal a = false ∧
    print_model cfg m = print_model cfg ⟨m.shown, l₁ ++ l₂, m.trueAtoms⟩ := by
  have h1 := isPrimaryVal_arity cfg m a harity
  have h2 := isAuxVal_arity a harity
  refine ⟨h1, h2, ?_⟩
  simp [print_model, primaryEntries, auxEntries, shownStrs, defsStrs,
    primaryVals, auxVals, isPrimaryVal_theory_inv, hsplit,
    List.filter_append, List.filter_cons, h1, h2]

/-- C10: a shown atom carrying the defined-predicate name at an arity
other than one is not a DefinedMarker atom: it stays on the primary line
and is never collected among the DefinedMarker atoms of the auxiliary
line. -/
theorem c10_marker_arity (cfg : AppConfig) (m : Model) (a : GAtom)
    (hmem : a ∈ m.shown) (hname : a.name = cfg.defined)
    (harity : a.args.length ≠ 1) :
    GAtom.str a ∈ primaryEntries cfg m ∧
    a ∉ m.shown.filter (isDefinedMarker cfg) := by
  have hdm : isDefinedMarker cfg a = false := by
    simp [isDefinedMarker, harity]
  constructor
  · apply List.mem_append_left
    exact List.mem_map_of_mem _ (List.mem_filter.mpr ⟨hmem, by simp [hdm]⟩)
  · intro hc
    have hcontra := (List.mem_filter.mp hc).2
    simp [hdm] at hcontra

/-- C3: a defined valuation whose variable bears the auxiliary functor is
never placed on the primary line; it is placed on the auxiliary line, and
with the flag disabled no auxiliary line exists at all. -/
theorem c3_aux_gating (cfg : AppConfig) (m : Model) (a : GAtom) (v w : Sym)
    (hmem : a ∈ m.theory) (hname : a.name = CSP) (hargs : a.args = [v, w])
    (haux : Sym.nameOf v = some AUX)
    (hdef : m.containsB ⟨cfg.defined, [v]⟩ = true) :
    isPrimaryVal cfg m a = false ∧
    (cfg.print_aux = true → valStr a ∈ auxEntries cfg m) ∧
    (cfg.print_aux = false → (print_model cfg m).auxLine = none) := by
  obtain ⟨n, args⟩ := a
  have hargs' : args = [v, w] := hargs
  have hname' : n = CSP := hname
  subst hargs'
  subst hname'
  refine ⟨?_, ?_, ?_⟩
  · simp [isPrimaryVal, haux]
  · intro _
    apply List.mem_append_right
    apply List.mem_map_of_mem
    exact List.mem_filter.mpr ⟨hmem, by simp [isAuxVal, haux]⟩
  · intro hp
    simp [print_model, hp]

/-- C1 amended: a valuation whose variable has no true defined atom never
reaches the primary line, but the auxiliary line does not consult
definedness: the valuation is collected there exactly when its variable
bears the auxiliary functor, and is printed when the flag is enabled. -/
theorem c1_defined_gating_amended (cfg : AppConfig) (m : Model) (a : GAtom)
    (v w : Sym) (hmem : a ∈ m.theory) (hname : a.name = CSP)
    (hargs : a.args = [v, w])
    (hnd : m.containsB ⟨cfg.defined, [v]⟩ = false) :
    isPrimaryVal cfg m a = false ∧
    isAuxVal a = (Sym.nameOf v == some AUX) ∧
    (Sym.nameOf v = some AUX → cfg.print_aux = true →
      valStr a ∈ auxEntries cfg m) := by
  obtain ⟨n, args⟩ := a
  have hargs' : args = [v, w] := hargs
  have hname' : n = CSP := hname
  subst hargs'
  subst hname'
  refine ⟨?_, ?_, ?_⟩
  · simp [isPrimaryVal, hnd]
  · simp [isAuxVal]
  · intro haux _
    apply List.mem_append_right
    apply List.mem_map_of_mem
    exact List.mem_filter.mpr ⟨hmem, by simp [isAuxVal, haux]⟩

/-- C1 counterexample: with auxiliary printing enabled, an auxiliary
variable with no true defined atom still receives a val entry on the
auxiliary output line, refuting the claim that an undefined variable
appears on neither line. -/
theorem c1_counterexample :
    cfgAuxOn.print_aux = true ∧
    Model.containsB mUndefAux ⟨cfgAuxOn.defined, [auxVar]⟩ = false ∧
    (print_model cfgAuxOn mUndefAux).auxLine = some "val(__aux(1),5)" := by
  refine ⟨rfl, rfl, ?_⟩
  rfl

/-- C1 witness: the amended statement instantiated at the undefined
auxiliary valuation. -/
theorem c1_amended_witness :
    isPrimaryVal cfgAuxOn mUndefAux cspAux5 = false ∧
    isAuxVal cspAux5 = (Sym.nameOf auxVar == some AUX) ∧
    (Sym.nameOf auxVar = some AUX → cfgAuxOn.print_aux = true →
      valStr cspAux5 ∈ auxEntries cfgAuxOn mUndefAux) :=
  c1_defined_gating_amended cfgAuxOn mUndefAux cspAux5 auxVar (.num 5)
    (List.mem_singleton.mpr rfl) rfl rfl rfl

/-- C3 witness: the auxiliary gating statement instantiated at the defined
auxiliary valuation. -/
theorem c3_witness :
    isPrimaryVal cfgAuxOn mDefAux cspAux5 = false ∧
    (cfgAuxOn.print_aux = true → valStr cspAux5 ∈ auxEntries cfgAuxOn mDefAux) ∧
    (cfgAuxOn.print_aux = false → (print_model cfgAuxOn mDefAux).auxLine = none) :=
  c3_aux_gating cfgAuxOn mDefAux cspAux5 auxVar (.num 5)
    (List.mem_singleton.mpr rfl) rfl rfl rfl (by decide)

/-- C5 witness: the arity rejection statement instantiated at a malformed
valuation atom of arity one. -/
theorem c5_witness :
    isPrimaryVal defaultAppConfig mMalformed cspArity1 = false ∧
    isAuxVal cspArity1 = false ∧
    print_model defaultAppConfig mMalformed =
      print_model defaultAppConfig ⟨mMalformed.shown, [], mMalformed.trueAtoms⟩ :=
  c5_arity_rejection defaultAppConfig mMalformed cspArity1 [] [] rfl
    (by decide) rfl

/-- C10 witness: the marker arity statement instantiated at a shown atom
with the defined-predicate name and two arguments. -/
theorem c10_witness :
    GAtom.str defArity2 ∈ primaryEntries defaultAppConfig mDefArity2 ∧
    defArity2 ∉ mDefArity2.shown.filter (isDefinedMarker defaultAppConfig) :=
  c10_marker_arity defaultAppConfig mDefArity2 defArity2
    (List.mem_singleton.mpr rfl) rfl (by decide)

/-- The visiting fold only ever appends to the emitted statement list, one
rewritten statement per visited statement. -/
theorem foldl_visitStep_fst {S H B : Type}
    (visit : S → List (H × B) → S × List (H × B)) :
    ∀ (post : List S) (acc : List S × List (H × B)),
      ∃ t : List S, (post.foldl (visitStep visit) acc).1 = acc.1 ++ t ∧
        t.length = post.length
  | [], acc => ⟨[], by simp, rfl⟩
  | s :: rest, acc => by
      obtain ⟨t, h1, h2⟩ :=
        foldl_visitStep_fst visit rest (visitStep visit acc s)
      refine ⟨(visit s acc.2).1 :: t, ?_, by simp [h2]⟩
      rw [List.foldl_cons, h1]
      simp [visitStep]

/-- The rewritten primary stream has exactly one statement per input
statement. -/
theorem rewriteRun_fst_length {S H B : Type}
    (visit : S → List (H × B) → S × List (H × B)) (stmts : List S) :
    (rewriteRun visit stmts).1.length = stmts.length := by
  obtain ⟨t, h1, h2⟩ := foldl_visitStep_fst visit stmts ([], [])
  simp [rewriteRun, h1, h2]

/-- Splitting the visiting pass at one distinguished statement. -/
theorem rewriteRun_append_cons {S H B : Type}
    (visit : S → List (H × B) → S × List (H × B)) (pre post : List S) (s : S) :
    rewriteRun visit (pre ++ s :: post)
      = post.foldl (visitStep visit) (visitStep visit (rewriteRun visit pre) s) := by
  simp [rewriteRun, List.foldl_append]

/-- Element lookup in the middle of an append, at the length of the left
part. -/
theorem getElem?_middle {α : Type} (A : List α) (x : α) (rest : List α)
    (n : Nat) (h : n = A.length) : (A ++ x :: rest)[n]? = some x := by
  subst h
  rw [List.getElem?_append_right (Nat.le_refl _)]
  simp

/-- Dropping exactly the left part of an append. -/
theorem drop_length_append {α : Type} (A B : List α) (n : Nat)
    (h : A.length = n) : (A ++ B).drop n = B := by
  subst h
  exact List.drop_left A B

/-- C6: main adds the rewritten statements in their original relative
order (the builder entry at each input position is the rewrite of the
input statement at that position), and all queued pending rules come
strictly after all statements, in synthesis order, each carrying the fixed
synthetic location. -/
theorem c6_order_preservation {S H B : Type}
    (visit : S → List (H × B) → S × List (H × B)) (pre post : List S) (s : S) :
    (rewriteRun visit (pre ++ s :: post)).1.length = (pre ++ s :: post).length ∧
    (mainBuild visit (pre ++ s :: post))[pre.length]?
      = some (.stmt (visit s (rewriteRun visit pre).2).1) ∧
    (mainBuild visit (pre ++ s :: post)).drop (pre ++ s :: post).length
      = ((rewriteRun visit (pre ++ s :: post)).2).map
          (fun r => BldEntry.rule synthLoc r.1 r.2) ∧
    synthLoc = ⟨⟨"<string>", 1, 1⟩, ⟨"<string>", 1, 1⟩⟩ := by
  refine ⟨rewriteRun_fst_length visit _, ?_, ?_, rfl⟩
  · obtain ⟨t, h1, h2⟩ :=
      foldl_visitStep_fst visit post (visitStep visit (rewriteRun visit pre) s)
    have hrw : (rewriteRun visit (pre ++ s :: post)).1
        = (rewriteRun visit pre).1
            ++ (visit s (rewriteRun visit pre).2).1 :: t := by
      rw [rewriteRun_append_cons, h1]
      simp [visitStep]
    unfold mainBuild
    rw [hrw]
    simp only [List.map_append, List.map_cons, List.append_assoc,
      List.cons_append]
    exact getElem?_middle _ _ _ _ (by simp [rewriteRun_fst_length visit pre])
  · unfold mainBuild
    exact drop_length_append _ _ _ (by simp [rewriteRun_fst_length])

end Flingo
